import Mathlib

/-!
# Jack's Car Rental — verification of the policy-iteration notebook

A shallow embedding of `RL_LAB2_car_rental_jupyter.ipynb`: the hard-coded
environment constants, the memoized Poisson probability lookup, the
`expected_return` evaluator (in both its simplified and full-return variants),
and the driver's policy-evaluation and policy-improvement sweeps.

Numeric values are modelled over `ℚ`.  The external call
`scipy.stats.poisson.pmf` is abstracted as a parameter
`pmf : ℕ → ℕ → ℚ` (count, rate); the notebook's global memoization
dictionary `poisson_cache` is modelled explicitly as an association list
threaded through `poisson_probability`.

The 2-D numpy arrays `value` (shape `(MAX_CARS+1) × (MAX_CARS+1)`) and
`policy` are modelled as flat row-major lists of length
`(MAX_CARS+1) * (MAX_CARS+1) = 441`, read through `vread`.
-/

namespace CarRental

/-! ## Hard-coded parameters (notebook cell 5) -/

def MAX_CARS : ℕ := 20

def MAX_MOVE_OF_CARS : ℤ := 5

def RENTAL_REQUEST_FIRST_LOC : ℕ := 3

def RENTAL_REQUEST_SECOND_LOC : ℕ := 4

def RETURNS_FIRST_LOC : ℕ := 3

def RETURNS_SECOND_LOC : ℕ := 2

def DISCOUNT : ℚ := 9/10

def RENTAL_CREDIT : ℚ := 10

def MOVE_CAR_COST : ℚ := 2

/-- All possible actions: `np.arange(-MAX_MOVE_OF_CARS, MAX_MOVE_OF_CARS + 1)`. -/
def actions : List ℤ := (List.range 11).map (fun k => (k : ℤ) - MAX_MOVE_OF_CARS)

def POISSON_UPPER_BOUND : ℕ := 11

/-! ## Value-table reads

`vread v i j` models the numpy read `v[i, j]` on a flat row-major table;
`vread? v i j` is the total (Option-returning) variant that detects an
index outside `[0, MAX_CARS] × [0, MAX_CARS]`. -/

def vread (v : List ℚ) (i j : ℤ) : ℚ :=
  v.getD (i * (MAX_CARS + 1 : ℤ) + j).toNat 0

def vread? (v : List ℚ) (i j : ℤ) : Option ℚ :=
  if 0 ≤ i ∧ i ≤ (MAX_CARS : ℤ) ∧ 0 ≤ j ∧ j ≤ (MAX_CARS : ℤ) then
    some (vread v i j)
  else
    none

/-! ## Probability cache (notebook cell 7)

```python
poisson_cache = dict()
def poisson_probability(n, lam):
    global poisson_cache
    key = n * 10 + lam
    if key not in poisson_cache:
        poisson_cache[key] = poisson.pmf(n, lam)
    return poisson_cache[key]
```
-/

/-- The cache key encoding `key = n * 10 + lam`. -/
def pkey (n lam : ℕ) : ℕ := n * 10 + lam

/-- The global dictionary `poisson_cache`, as an association list. -/
def Cache : Type := List (ℕ × ℚ)

def cacheLookup : List (ℕ × ℚ) → ℕ → Option ℚ
  | [], _ => none
  | (k, q) :: c, key => if k = key then some q else cacheLookup c key

/-- The function `poisson_probability`, with the external `poisson.pmf`
abstracted as `pmf` and the mutable global dictionary threaded explicitly. -/
def poisson_probability (pmf : ℕ → ℕ → ℚ) (cache : List (ℕ × ℚ)) (n lam : ℕ) :
    ℚ × List (ℕ × ℚ) :=
  let key := pkey n lam
  match cacheLookup cache key with
  | some q => (q, cache)
  | none => (pmf n lam, (key, pmf n lam) :: cache)

/-- The value `poisson_probability` returns from a given cache state:
the stored value under the encoded key if present, else the freshly
computed mass. -/
def answer (pmf : ℕ → ℕ → ℚ) (cache : List (ℕ × ℚ)) (n lam : ℕ) : ℚ :=
  match cacheLookup cache (pkey n lam) with
  | some q => q
  | none => pmf n lam

/-- A cache state is valid when every stored entry is the probability mass
of the (count, rate) pair its key decodes to (keys of rates `< 10` decode
uniquely as `key = count * 10 + rate`). -/
def validCache (pmf : ℕ → ℕ → ℚ) (cache : List (ℕ × ℚ)) : Prop :=
  ∀ p ∈ cache, p.2 = pmf (p.1 / 10) (p.1 % 10)

/-! ## The expected-return evaluator (notebook cell 9)

`expected_return_rc` generalizes the global constant `RENTAL_CREDIT` to a
parameter `rc`; `expected_return` fixes `rc = RENTAL_CREDIT`.  The nested
`for` loops of the source accumulate into `returns`, rendered as `foldl`
over `List.range POISSON_UPPER_BOUND`.  The cache-threading variant
`expected_return_full` appears further below; here the probability lookups
are inlined as `pmf`, which is justified by `expected_return_full_spec`. -/

def expected_return_rc (rc : ℚ) (pmf : ℕ → ℕ → ℚ) (state : ℤ × ℤ) (action : ℤ)
    (state_value : List ℚ) (constant_returned_cars : Bool) : ℚ :=
  -- initialize total return, minus cost for moving cars
  let returns : ℚ := 0 - MOVE_CAR_COST * (|action| : ℤ)
  -- moving cars
  let NUM_OF_CARS_FIRST_LOC : ℤ := min (state.1 - action) (MAX_CARS : ℤ)
  let NUM_OF_CARS_SECOND_LOC : ℤ := min (state.2 + action) (MAX_CARS : ℤ)
  (List.range POISSON_UPPER_BOUND).foldl (fun returns rental_request_first_loc =>
    (List.range POISSON_UPPER_BOUND).foldl (fun returns rental_request_second_loc =>
      let prob := pmf rental_request_first_loc RENTAL_REQUEST_FIRST_LOC *
        pmf rental_request_second_loc RENTAL_REQUEST_SECOND_LOC
      let num_of_cars_first_loc := NUM_OF_CARS_FIRST_LOC
      let num_of_cars_second_loc := NUM_OF_CARS_SECOND_LOC
      let valid_rental_first_loc := min num_of_cars_first_loc (rental_request_first_loc : ℤ)
      let valid_rental_second_loc := min num_of_cars_second_loc (rental_request_second_loc : ℤ)
      let reward : ℚ := ((valid_rental_first_loc + valid_rental_second_loc : ℤ) : ℚ) * rc
      let num_of_cars_first_loc := num_of_cars_first_loc - valid_rental_first_loc
      let num_of_cars_second_loc := num_of_cars_second_loc - valid_rental_second_loc
      if constant_returned_cars then
        let num_of_cars_first_loc :=
          min (num_of_cars_first_loc + (RETURNS_FIRST_LOC : ℤ)) (MAX_CARS : ℤ)
        let num_of_cars_second_loc :=
          min (num_of_cars_second_loc + (RETURNS_SECOND_LOC : ℤ)) (MAX_CARS : ℤ)
        returns + prob * (reward +
          DISCOUNT * vread state_value num_of_cars_first_loc num_of_cars_second_loc)
      else
        (List.range POISSON_UPPER_BOUND).foldl (fun returns returned_cars_first_loc =>
          (List.range POISSON_UPPER_BOUND).foldl (fun returns returned_cars_second_loc =>
            let prob_return := pmf returned_cars_first_loc RETURNS_FIRST_LOC *
              pmf returned_cars_second_loc RETURNS_SECOND_LOC
            let num_of_cars_first_loc_ :=
              min (num_of_cars_first_loc + (returned_cars_first_loc : ℤ)) (MAX_CARS : ℤ)
            let num_of_cars_second_loc_ :=
              min (num_of_cars_second_loc + (returned_cars_second_loc : ℤ)) (MAX_CARS : ℤ)
            let prob_ := prob_return * prob
            returns + prob_ * (reward +
              DISCOUNT * vread state_value num_of_cars_first_loc_ num_of_cars_second_loc_))
          returns) returns) returns) returns

def expected_return (pmf : ℕ → ℕ → ℚ) (state : ℤ × ℤ) (action : ℤ)
    (state_value : List ℚ) (constant_returned_cars : Bool) : ℚ :=
  expected_return_rc RENTAL_CREDIT pmf state action state_value constant_returned_cars

/-- Modelled from the claim's words (refinement reference): minus
`move_cost × |a|`, plus for every rental-request pair `(r1, r2)` in
`[0, N) × [0, N)` the joint probability times
`reward + discount × V[post-return counts clamped above to MAX_CARS]`,
with post-move counts `min (n1 - a) MAX_CARS` and `min (n2 + a) MAX_CARS`,
valid rentals the minimum of post-move count and request, and
`reward = (valid1 + valid2) × rental_credit`; for the non-simplified
variant the term is further summed over return pairs weighted by the joint
return probability, and for the simplified one the fixed constant return
counts are added instead. -/
def expected_return_spec_rc (rc : ℚ) (pmf : ℕ → ℕ → ℚ) (state : ℤ × ℤ) (action : ℤ)
    (state_value : List ℚ) (constant_returned_cars : Bool) : ℚ :=
  let n1 : ℤ := min (state.1 - action) (MAX_CARS : ℤ)
  let n2 : ℤ := min (state.2 + action) (MAX_CARS : ℤ)
  0 - MOVE_CAR_COST * (|action| : ℤ) +
    ∑ r1 ∈ Finset.range POISSON_UPPER_BOUND, ∑ r2 ∈ Finset.range POISSON_UPPER_BOUND,
      (let valid1 : ℤ := min n1 (r1 : ℤ)
       let valid2 : ℤ := min n2 (r2 : ℤ)
       let reward : ℚ := ((valid1 + valid2 : ℤ) : ℚ) * rc
       pmf r1 RENTAL_REQUEST_FIRST_LOC * pmf r2 RENTAL_REQUEST_SECOND_LOC *
         (if constant_returned_cars then
            reward + DISCOUNT * vread state_value
              (min (n1 - valid1 + (RETURNS_FIRST_LOC : ℤ)) (MAX_CARS : ℤ))
              (min (n2 - valid2 + (RETURNS_SECOND_LOC : ℤ)) (MAX_CARS : ℤ))
          else
            ∑ u1 ∈ Finset.range POISSON_UPPER_BOUND, ∑ u2 ∈ Finset.range POISSON_UPPER_BOUND,
              pmf u1 RETURNS_FIRST_LOC * pmf u2 RETURNS_SECOND_LOC *
                (reward + DISCOUNT * vread state_value
                  (min (n1 - valid1 + (u1 : ℤ)) (MAX_CARS : ℤ))
                  (min (n2 - valid2 + (u2 : ℤ)) (MAX_CARS : ℤ)))))

/-- The evaluator with every value-table read routed through the total
(Option-returning) lookup `vread?`: the result is `none` exactly when some
read falls outside `[0, MAX_CARS] × [0, MAX_CARS]`. -/
def expected_return_check (rc : ℚ) (pmf : ℕ → ℕ → ℚ) (state : ℤ × ℤ) (action : ℤ)
    (state_value : List ℚ) (constant_returned_cars : Bool) : Option ℚ :=
  let returns : ℚ := 0 - MOVE_CAR_COST * (|action| : ℤ)
  let NUM_OF_CARS_FIRST_LOC : ℤ := min (state.1 - action) (MAX_CARS : ℤ)
  let NUM_OF_CARS_SECOND_LOC : ℤ := min (state.2 + action) (MAX_CARS : ℤ)
  (List.range POISSON_UPPER_BOUND).foldl (fun acc rental_request_first_loc =>
    (List.range POISSON_UPPER_BOUND).foldl (fun acc rental_request_second_loc =>
      let prob := pmf rental_request_first_loc RENTAL_REQUEST_FIRST_LOC *
        pmf rental_request_second_loc RENTAL_REQUEST_SECOND_LOC
      let valid_rental_first_loc := min NUM_OF_CARS_FIRST_LOC (rental_request_first_loc : ℤ)
      let valid_rental_second_loc := min NUM_OF_CARS_SECOND_LOC (rental_request_second_loc : ℤ)
      let reward : ℚ := ((valid_rental_first_loc + valid_rental_second_loc : ℤ) : ℚ) * rc
      let num_of_cars_first_loc := NUM_OF_CARS_FIRST_LOC - valid_rental_first_loc
      let num_of_cars_second_loc := NUM_OF_CARS_SECOND_LOC - valid_rental_second_loc
      if constant_returned_cars then
        acc.bind (fun q =>
          (vread? state_value
            (min (num_of_cars_first_loc + (RETURNS_FIRST_LOC : ℤ)) (MAX_CARS : ℤ))
            (min (num_of_cars_second_loc + (RETURNS_SECOND_LOC : ℤ)) (MAX_CARS : ℤ))).map
            (fun w => q + prob * (reward + DISCOUNT * w)))
      else
        (List.range POISSON_UPPER_BOUND).foldl (fun acc returned_cars_first_loc =>
          (List.range POISSON_UPPER_BOUND).foldl (fun acc returned_cars_second_loc =>
            let prob_return := pmf returned_cars_first_loc RETURNS_FIRST_LOC *
              pmf returned_cars_second_loc RETURNS_SECOND_LOC
            let prob_ := prob_return * prob
            acc.bind (fun q =>
              (vread? state_value
                (min (num_of_cars_first_loc + (returned_cars_first_loc : ℤ)) (MAX_CARS : ℤ))
                (min (num_of_cars_second_loc + (returned_cars_second_loc : ℤ)) (MAX_CARS : ℤ))).map
                (fun w => q + prob_ * (reward + DISCOUNT * w))))
          acc) acc) acc) (some returns)

/-! ## The evaluator with the memoization cache threaded explicitly

This is the full embedding of the source `expected_return`, whose
probability lookups go through `poisson_probability` and hence read and
grow the global `poisson_cache`.  The program state visible to the call
is the value table (read only) and the cache (read and grown). -/

structure RentalState where
  value : List ℚ
  cache : List (ℕ × ℚ)

def expected_return_full (pmf : ℕ → ℕ → ℚ) (state : ℤ × ℤ) (action : ℤ)
    (σ : RentalState) (constant_returned_cars : Bool) : ℚ × RentalState :=
  let returns : ℚ := 0 - MOVE_CAR_COST * (|action| : ℤ)
  let NUM_OF_CARS_FIRST_LOC : ℤ := min (state.1 - action) (MAX_CARS : ℤ)
  let NUM_OF_CARS_SECOND_LOC : ℤ := min (state.2 + action) (MAX_CARS : ℤ)
  let res := (List.range POISSON_UPPER_BOUND).foldl
    (fun (acc : ℚ × List (ℕ × ℚ)) rental_request_first_loc =>
      (List.range POISSON_UPPER_BOUND).foldl
        (fun (acc : ℚ × List (ℕ × ℚ)) rental_request_second_loc =>
          let p1 := poisson_probability pmf acc.2 rental_request_first_loc
            RENTAL_REQUEST_FIRST_LOC
          let p2 := poisson_probability pmf p1.2 rental_request_second_loc
            RENTAL_REQUEST_SECOND_LOC
          let prob := p1.1 * p2.1
          let valid_rental_first_loc := min NUM_OF_CARS_FIRST_LOC (rental_request_first_loc : ℤ)
          let valid_rental_second_loc := min NUM_OF_CARS_SECOND_LOC (rental_request_second_loc : ℤ)
          let reward : ℚ := ((valid_rental_first_loc + valid_rental_second_loc : ℤ) : ℚ) * RENTAL_CREDIT
          let num_of_cars_first_loc := NUM_OF_CARS_FIRST_LOC - valid_rental_first_loc
          let num_of_cars_second_loc := NUM_OF_CARS_SECOND_LOC - valid_rental_second_loc
          if constant_returned_cars then
            (acc.1 + prob * (reward + DISCOUNT * vread σ.value
              (min (num_of_cars_first_loc + (RETURNS_FIRST_LOC : ℤ)) (MAX_CARS : ℤ))
              (min (num_of_cars_second_loc + (RETURNS_SECOND_LOC : ℤ)) (MAX_CARS : ℤ))), p2.2)
          else
            (List.range POISSON_UPPER_BOUND).foldl
              (fun (acc : ℚ × List (ℕ × ℚ)) returned_cars_first_loc =>
                (List.range POISSON_UPPER_BOUND).foldl
                  (fun (acc : ℚ × List (ℕ × ℚ)) returned_cars_second_loc =>
                    let q1 := poisson_probability pmf acc.2 returned_cars_first_loc
                      RETURNS_FIRST_LOC
                    let q2 := poisson_probability pmf q1.2 returned_cars_second_loc
                      RETURNS_SECOND_LOC
                    let prob_return := q1.1 * q2.1
                    let prob_ := prob_return * prob
                    (acc.1 + prob_ * (reward + DISCOUNT * vread σ.value
                      (min (num_of_cars_first_loc + (returned_cars_first_loc : ℤ)) (MAX_CARS : ℤ))
                      (min (num_of_cars_second_loc + (returned_cars_second_loc : ℤ)) (MAX_CARS : ℤ))),
                      q2.2))
                  acc)
              (acc.1, p2.2))
        acc)
    (returns, σ.cache)
  (res.1, ⟨σ.value, res.2⟩)

/-! ## The policy-iteration driver (notebook cell 11)

The driver is top-level script code; its evaluation sweep, evaluation
phase, and improvement sweep are embedded below.  Both sweeps set each
flat index exactly once, in row-major order, against the partially
updated table — captured by the generic `setSweep`. -/

/-- Number of states: the tables are `(MAX_CARS+1) × (MAX_CARS+1)` arrays. -/
def NSTATES : ℕ := (MAX_CARS + 1) * (MAX_CARS + 1)

/-- Fold of an in-place update over flat indices `0, 1, ..., n-1`:
index `k` is overwritten with `f k` applied to the current, partially
updated table. -/
def setSweep {α : Type} (f : ℕ → List α → α) (n : ℕ) (v : List α) : List α :=
  (List.range n).foldl (fun acc k => acc.set k (f k acc)) v

/-- One policy-evaluation sweep: for each state `(i, j)` in row-major
order, `value[i, j] = expected_return([i, j], policy[i, j], value, flag)`,
updating in place. -/
def evaluation_sweep (pmf : ℕ → ℕ → ℚ) (policy : List ℤ) (constant_returned_cars : Bool)
    (value : List ℚ) : List ℚ :=
  setSweep (fun k acc =>
    expected_return pmf ((k / (MAX_CARS + 1) : ℕ), (k % (MAX_CARS + 1) : ℕ))
      (policy.getD k 0) acc constant_returned_cars) NSTATES value

/-- The convergence measure `abs(old_value - value).max()`. -/
def maxAbsDiff (old_value value : List ℚ) : ℚ :=
  (List.range NSTATES).foldl (fun m k => max m |old_value.getD k 0 - value.getD k 0|) 0

/-- The policy-evaluation phase: sweep repeatedly, stopping as soon as the
maximum absolute change of a full sweep drops below `1e-4`; `fuel` bounds
the number of sweeps and `none` means the bound was hit first. -/
def policy_evaluation (pmf : ℕ → ℕ → ℚ) (policy : List ℤ) (constant_returned_cars : Bool) :
    ℕ → List ℚ → Option (List ℚ)
  | 0, _ => none
  | fuel + 1, value =>
    let old_value := value
    let value' := evaluation_sweep pmf policy constant_returned_cars value
    if maxAbsDiff old_value value' < 1 / 10000 then some value'
    else policy_evaluation pmf policy constant_returned_cars fuel value'

/-- The feasibility test of the improvement sweep:
`(0 <= action <= i) or (-j <= action <= 0)`. -/
def legal (i j : ℕ) (action : ℤ) : Prop :=
  (0 ≤ action ∧ action ≤ (i : ℤ)) ∨ (-(j : ℤ) ≤ action ∧ action ≤ 0)

instance (i j : ℕ) (action : ℤ) : Decidable (legal i j action) := by
  unfold legal
  infer_instance

/-- The list `action_returns` built by the improvement sweep at state
`(i, j)`: the evaluated return for a legal action, `-np.inf` (here `⊥` in
`WithBot ℚ`) for an illegal one, in the enumeration order of `actions`. -/
def action_returns (pmf : ℕ → ℕ → ℚ) (value : List ℚ) (constant_returned_cars : Bool)
    (i j : ℕ) : List (WithBot ℚ) :=
  actions.map (fun action =>
    if legal i j action then
      ((expected_return pmf ((i : ℤ), (j : ℤ)) action value constant_returned_cars : ℚ) : WithBot ℚ)
    else ⊥)

/-- Index-tracking fold implementing `np.argmax`: strict improvement
moves the best index, so the first occurrence of the maximum wins. -/
def argmaxAux : List (WithBot ℚ) → ℕ → ℕ → WithBot ℚ → ℕ
  | [], _, bi, _ => bi
  | x :: xs, i, bi, bv => if bv < x then argmaxAux xs (i + 1) i x else argmaxAux xs (i + 1) bi bv

/-- First index of the maximum of the list (`np.argmax`). -/
def argmax (l : List (WithBot ℚ)) : ℕ := argmaxAux l 0 0 ⊥

/-- The greedy action the improvement sweep writes at state `(i, j)`:
`actions[np.argmax(action_returns)]`. -/
def new_action (pmf : ℕ → ℕ → ℚ) (value : List ℚ) (constant_returned_cars : Bool)
    (i j : ℕ) : ℤ :=
  actions.getD (argmax (action_returns pmf value constant_returned_cars i j)) 0

/-- The policy-improvement sweep: every state's policy entry is
overwritten with the greedy `new_action` (the written value does not
depend on the old policy, which is read only for the stability flag). -/
def improvement_sweep (pmf : ℕ → ℕ → ℚ) (value : List ℚ) (constant_returned_cars : Bool)
    (policy : List ℤ) : List ℤ :=
  setSweep (fun k _ =>
    new_action pmf value constant_returned_cars (k / (MAX_CARS + 1)) (k % (MAX_CARS + 1)))
    NSTATES policy

/-! ## Initial tables and concrete stand-ins for the external pmf -/

/-- Initial value table: `np.zeros((MAX_CARS + 1, MAX_CARS + 1))`. -/
def initial_value : List ℚ := List.replicate NSTATES 0

/-- Initial policy: `np.zeros(value.shape, dtype=np.int)`. -/
def initial_policy : List ℤ := List.replicate NSTATES 0

/-- Degenerate mass function: zero everywhere (used only to instantiate
theorems at concrete inputs). -/
def pmf_zero : ℕ → ℕ → ℚ := fun _ _ => 0

/-- Point mass at count 0 (the exact Poisson mass function of rate 0),
independent of the rate argument. -/
def pmf_point : ℕ → ℕ → ℚ := fun n _ => if n = 0 then 1 else 0

/-- A mass function whose value distinguishes counts (used to exhibit a
cache-key collision). -/
def pmf_count : ℕ → ℕ → ℚ := fun n _ => (n : ℚ)

/-! ## Fold-to-sum conversion -/

lemma foldl_add_eq (g : ℕ → ℚ) : ∀ (n : ℕ) (init : ℚ),
    (List.range n).foldl (fun acc i => acc + g i) init = init + ∑ i ∈ Finset.range n, g i
  | 0, init => by simp
  | n + 1, init => by
    rw [List.range_succ, List.foldl_append, foldl_add_eq g n init, Finset.sum_range_succ]
    simp [add_assoc]

/-- The source evaluator agrees with the claim's summation formula. -/
lemma expected_return_rc_eq_spec (rc : ℚ) (pmf : ℕ → ℕ → ℚ) (state : ℤ × ℤ) (action : ℤ)
    (v : List ℚ) (flag : Bool) :
    expected_return_rc rc pmf state action v flag =
      expected_return_spec_rc rc pmf state action v flag := by
  cases flag
  · unfold expected_return_rc expected_return_spec_rc
    simp only [Bool.false_eq_true, if_false, foldl_add_eq, zero_add]
    congr 1
    apply Finset.sum_congr rfl
    intro r1 _
    apply Finset.sum_congr rfl
    intro r2 _
    rw [Finset.mul_sum]
    apply Finset.sum_congr rfl
    intro u1 _
    rw [Finset.mul_sum]
    apply Finset.sum_congr rfl
    intro u2 _
    ring
  · unfold expected_return_rc expected_return_spec_rc
    simp only [if_true, foldl_add_eq, zero_add]

/-! ## Reads from the all-zero table -/

lemma vread_initial (i j : ℤ) : vread initial_value i j = 0 := by
  unfold vread initial_value
  rcases Nat.lt_or_ge (i * (MAX_CARS + 1 : ℤ) + j).toNat NSTATES with h | h
  · rw [List.getD_eq_getElem _ _ (by simpa using h)]
    simp
  · rw [List.getD_eq_default _ _ (by simpa using h)]

/-- The point mass `pmf_point` is nonnegative everywhere. -/
lemma pmf_point_nonneg (n lam : ℕ) : 0 ≤ pmf_point n lam := by
  unfold pmf_point
  split <;> norm_num

/-! ## C1: the evaluator computes the claimed expectation -/

/-- C1. For every in-range state, feasible action, and value table, the
source `expected_return` equals the claimed truncated-expectation formula:
minus the move cost, plus the request-probability-weighted sum of
`reward + discount × V[clamped post-return counts]`, with the extra
return-pair summation exactly when `constant_returned_cars` is false. -/
theorem spec_c1 (pmf : ℕ → ℕ → ℚ) (n1 n2 a : ℤ) (V : List ℚ) (flag : Bool)
    (h1 : 0 ≤ n1 ∧ n1 ≤ (MAX_CARS : ℤ)) (h2 : 0 ≤ n2 ∧ n2 ≤ (MAX_CARS : ℤ))
    (hfeas : (0 ≤ a ∧ a ≤ n1) ∨ (-n2 ≤ a ∧ a ≤ 0)) :
    expected_return pmf (n1, n2) a V flag =
      expected_return_spec_rc RENTAL_CREDIT pmf (n1, n2) a V flag :=
  expected_return_rc_eq_spec RENTAL_CREDIT pmf (n1, n2) a V flag

theorem spec_c1_witness :
    ((0 : ℤ) ≤ 1 ∧ (1 : ℤ) ≤ (MAX_CARS : ℤ)) ∧ ((0 : ℤ) ≤ 1 ∧ (1 : ℤ) ≤ (MAX_CARS : ℤ)) ∧
      ((0 ≤ (0 : ℤ) ∧ (0 : ℤ) ≤ 1) ∨ (-1 ≤ (0 : ℤ) ∧ (0 : ℤ) ≤ 0)) ∧
      expected_return pmf_point (1, 1) 0 initial_value true =
        expected_return_spec_rc RENTAL_CREDIT pmf_point (1, 1) 0 initial_value true :=
  ⟨by unfold MAX_CARS; omega, by unfold MAX_CARS; omega, by omega,
    spec_c1 pmf_point 1 1 0 initial_value true (by unfold MAX_CARS; omega)
      (by unfold MAX_CARS; omega) (by omega)⟩


lemma expected_return_rc_mono (pmf : ℕ → ℕ → ℚ) (hpmf : ∀ n lam, 0 ≤ pmf n lam)
    (n1 n2 a : ℤ) (V : List ℚ) (flag : Bool)
    (h1 : 0 ≤ n1 ∧ n1 ≤ (MAX_CARS : ℤ)) (h2 : 0 ≤ n2 ∧ n2 ≤ (MAX_CARS : ℤ))
    (hfeas : (0 ≤ a ∧ a ≤ n1) ∨ (-n2 ≤ a ∧ a ≤ 0)) {rc rc' : ℚ} (hrc : rc ≤ rc') :
    expected_return_rc rc pmf (n1, n2) a V flag ≤
      expected_return_rc rc' pmf (n1, n2) a V flag := by
  have hm1 : (0 : ℤ) ≤ min (n1 - a) (MAX_CARS : ℤ) := by
    unfold MAX_CARS
    omega
  have hm2 : (0 : ℤ) ≤ min (n2 + a) (MAX_CARS : ℤ) := by
    unfold MAX_CARS
    omega
  rw [expected_return_rc_eq_spec, expected_return_rc_eq_spec]
  unfold expected_return_spec_rc
  apply add_le_add_left
  apply Finset.sum_le_sum
  intro r1 _
  apply Finset.sum_le_sum
  intro r2 _
  have hcoeff : (0 : ℚ) ≤ ((min (min (n1 - a) (MAX_CARS : ℤ)) (r1 : ℤ) +
      min (min (n2 + a) (MAX_CARS : ℤ)) (r2 : ℤ) : ℤ) : ℚ) := by
    have : (0 : ℤ) ≤ min (min (n1 - a) (MAX_CARS : ℤ)) (r1 : ℤ) +
        min (min (n2 + a) (MAX_CARS : ℤ)) (r2 : ℤ) := by omega
    exact_mod_cast this
  apply mul_le_mul_of_nonneg_left _ (mul_nonneg (hpmf r1 _) (hpmf r2 _))
  cases flag
  · simp only [Bool.false_eq_true, if_false]
    apply Finset.sum_le_sum
    intro u1 _
    apply Finset.sum_le_sum
    intro u2 _
    apply mul_le_mul_of_nonneg_left _ (mul_nonneg (hpmf u1 _) (hpmf u2 _))
    apply add_le_add_right
    exact mul_le_mul_of_nonneg_left hrc hcoeff
  · simp only [if_true]
    apply add_le_add_right
    exact mul_le_mul_of_nonneg_left hrc hcoeff


theorem spec_c9_counterexample :
    expected_return_rc 20 pmf_point ((0 : ℤ), (0 : ℤ)) 5 initial_value true <
      expected_return_rc 10 pmf_point ((0 : ℤ), (0 : ℤ)) 5 initial_value true := by
  rw [expected_return_rc_eq_spec, expected_return_rc_eq_spec]
  unfold expected_return_spec_rc
  simp [pmf_point, vread_initial, POISSON_UPPER_BOUND, MAX_CARS, MOVE_CAR_COST, DISCOUNT]
  norm_num


lemma expected_return_rc_origin (rc : ℚ) (pmf : ℕ → ℕ → ℚ) (V : List ℚ) (flag : Bool) :
    expected_return_rc rc pmf ((0 : ℤ), (0 : ℤ)) 0 V flag =
      expected_return_rc 0 pmf ((0 : ℤ), (0 : ℤ)) 0 V flag := by
  rw [expected_return_rc_eq_spec, expected_return_rc_eq_spec]
  unfold expected_return_spec_rc
  simp only []
  congr 1
  apply Finset.sum_congr rfl
  intro r1 _
  apply Finset.sum_congr rfl
  intro r2 _
  have e1 : min (min ((0 : ℤ) - 0) (MAX_CARS : ℤ)) (r1 : ℤ) = 0 := by
    unfold MAX_CARS
    omega
  have e2 : min (min ((0 : ℤ) + 0) (MAX_CARS : ℤ)) (r2 : ℤ) = 0 := by
    unfold MAX_CARS
    omega
  cases flag
  · simp [e1, e2]
  · simp [e1, e2]


/-- C9 (amended). With nonnegative probability masses, an in-range state
and a feasible action, the evaluator is monotonically non-decreasing in
the rental credit; doubling a nonnegative credit never decreases the
result; and at state (0, 0) with action 0 the result is independent of
the credit. -/
theorem spec_c9 (pmf : ℕ → ℕ → ℚ) (hpmf : ∀ n lam, 0 ≤ pmf n lam)
    (n1 n2 a : ℤ) (V : List ℚ) (flag : Bool)
    (h1 : 0 ≤ n1 ∧ n1 ≤ (MAX_CARS : ℤ)) (h2 : 0 ≤ n2 ∧ n2 ≤ (MAX_CARS : ℤ))
    (hfeas : (0 ≤ a ∧ a ≤ n1) ∨ (-n2 ≤ a ∧ a ≤ 0))
    (rc rc' : ℚ) (hrc : rc ≤ rc') (hrc0 : 0 ≤ rc) :
    expected_return_rc rc pmf (n1, n2) a V flag ≤
        expected_return_rc rc' pmf (n1, n2) a V flag ∧
      expected_return_rc rc pmf (n1, n2) a V flag ≤
        expected_return_rc (2 * rc) pmf (n1, n2) a V flag ∧
      expected_return_rc rc pmf ((0 : ℤ), (0 : ℤ)) 0 V flag =
        expected_return_rc rc' pmf ((0 : ℤ), (0 : ℤ)) 0 V flag :=
  ⟨expected_return_rc_mono pmf hpmf n1 n2 a V flag h1 h2 hfeas hrc,
    expected_return_rc_mono pmf hpmf n1 n2 a V flag h1 h2 hfeas (by linarith),
    (expected_return_rc_origin rc pmf V flag).trans
      (expected_return_rc_origin rc' pmf V flag).symm⟩

theorem spec_c9_witness :
    (∀ n lam, 0 ≤ pmf_point n lam) ∧
      ((0 : ℤ) ≤ 1 ∧ (1 : ℤ) ≤ (MAX_CARS : ℤ)) ∧ ((0 : ℤ) ≤ 1 ∧ (1 : ℤ) ≤ (MAX_CARS : ℤ)) ∧
      ((0 ≤ (0 : ℤ) ∧ (0 : ℤ) ≤ 1) ∨ (-1 ≤ (0 : ℤ) ∧ (0 : ℤ) ≤ 0)) ∧
      ((10 : ℚ) ≤ 20) ∧ ((0 : ℚ) ≤ 10) ∧
      (expected_return_rc 10 pmf_point (1, 1) 0 initial_value true ≤
          expected_return_rc 20 pmf_point (1, 1) 0 initial_value true ∧
        expected_return_rc 10 pmf_point (1, 1) 0 initial_value true ≤
          expected_return_rc (2 * 10) pmf_point (1, 1) 0 initial_value true ∧
        expected_return_rc 10 pmf_point ((0 : ℤ), (0 : ℤ)) 0 initial_value true =
          expected_return_rc 20 pmf_point ((0 : ℤ), (0 : ℤ)) 0 initial_value true) :=
  ⟨pmf_point_nonneg, by unfold MAX_CARS; omega, by unfold MAX_CARS; omega, by omega,
    by norm_num, by norm_num,
    spec_c9 pmf_point pmf_point_nonneg 1 1 0 initial_value true (by unfold MAX_CARS; omega)
      (by unfold MAX_CARS; omega) (by omega) 10 20 (by norm_num) (by norm_num)⟩


/-! ## The checked evaluator never hits an out-of-range read -/

lemma vread?_eq (v : List ℚ) (i j : ℤ)
    (hi : 0 ≤ i ∧ i ≤ (MAX_CARS : ℤ)) (hj : 0 ≤ j ∧ j ≤ (MAX_CARS : ℤ)) :
    vread? v i j = some (vread v i j) :=
  if_pos ⟨hi.1, hi.2, hj.1, hj.2⟩

/-- Index arithmetic: whatever the (possibly infeasible) post-move count
`N`, the post-return count `min (N - min N r + c) MAX_CARS` lies in
`[0, MAX_CARS]`, because subtracting the valid rentals restores a
nonnegative count. -/
lemma idx_in_range (N : ℤ) (r c : ℕ) :
    0 ≤ min (N - min N (r : ℤ) + (c : ℤ)) (MAX_CARS : ℤ) ∧
      min (N - min N (r : ℤ) + (c : ℤ)) (MAX_CARS : ℤ) ≤ (MAX_CARS : ℤ) := by
  unfold MAX_CARS
  omega

lemma foldl_option_some {α : Type} (f? : Option ℚ → α → Option ℚ) (f : ℚ → α → ℚ)
    (h : ∀ q x, f? (some q) x = some (f q x)) :
    ∀ (l : List α) (q : ℚ), l.foldl f? (some q) = some (l.foldl f q)
  | [], q => rfl
  | x :: xs, q => by
    rw [List.foldl_cons, List.foldl_cons, h, foldl_option_some f? f h]

/-- Every value-table read of the evaluator is in range, for every state
and action (feasible or not): the checked evaluator always succeeds and
agrees with the unchecked one. -/
lemma expected_return_check_eq_some (rc : ℚ) (pmf : ℕ → ℕ → ℚ) (state : ℤ × ℤ)
    (action : ℤ) (v : List ℚ) (flag : Bool) :
    expected_return_check rc pmf state action v flag =
      some (expected_return_rc rc pmf state action v flag) := by
  unfold expected_return_check expected_return_rc
  simp only []
  apply foldl_option_some
  intro q r1
  apply foldl_option_some
  intro q' r2
  cases flag
  · simp only [Bool.false_eq_true, if_false]
    apply foldl_option_some
    intro q'' u1
    apply foldl_option_some
    intro q3 u2
    rw [vread?_eq _ _ _ (idx_in_range _ _ _) (idx_in_range _ _ _)]
    rfl
  · simp only [if_true]
    rw [vread?_eq _ _ _ (idx_in_range _ _ _) (idx_in_range _ _ _)]
    rfl


/-- C6. Called on an in-range state with a feasible action, every index
pair the evaluator uses to read the value table lies within
`[0, MAX_CARS]` in each coordinate: the `none` branch of the total
Option-returning lookup is unreachable, despite the missing lower clamp
of the post-move counts. -/
theorem spec_c6 (pmf : ℕ → ℕ → ℚ) (n1 n2 a : ℤ) (V : List ℚ) (flag : Bool)
    (h1 : 0 ≤ n1 ∧ n1 ≤ (MAX_CARS : ℤ)) (h2 : 0 ≤ n2 ∧ n2 ≤ (MAX_CARS : ℤ))
    (hfeas : (0 ≤ a ∧ a ≤ n1) ∨ (-n2 ≤ a ∧ a ≤ 0)) :
    expected_return_check RENTAL_CREDIT pmf (n1, n2) a V flag =
      some (expected_return pmf (n1, n2) a V flag) :=
  expected_return_check_eq_some RENTAL_CREDIT pmf (n1, n2) a V flag

theorem spec_c6_witness :
    ((0 : ℤ) ≤ 1 ∧ (1 : ℤ) ≤ (MAX_CARS : ℤ)) ∧ ((0 : ℤ) ≤ 1 ∧ (1 : ℤ) ≤ (MAX_CARS : ℤ)) ∧
      ((0 ≤ (0 : ℤ) ∧ (0 : ℤ) ≤ 1) ∨ (-1 ≤ (0 : ℤ) ∧ (0 : ℤ) ≤ 0)) ∧
      expected_return_check RENTAL_CREDIT pmf_point (1, 1) 0 initial_value true =
        some (expected_return pmf_point (1, 1) 0 initial_value true) :=
  ⟨by unfold MAX_CARS; omega, by unfold MAX_CARS; omega, by omega,
    spec_c6 pmf_point 1 1 0 initial_value true (by unfold MAX_CARS; omega)
      (by unfold MAX_CARS; omega) (by omega)⟩

/-- C7, counterexample. At state (0, 0) with action 5 the post-move count
is negative, yet the call does not abort: the checked evaluator returns a
value rather than `none`, because the rental subtraction restores the
counts fed to the table reads into range. -/
theorem spec_c7_counterexample :
    min ((0 : ℤ) - 5) (MAX_CARS : ℤ) < 0 ∧
      expected_return_check RENTAL_CREDIT pmf_zero ((0 : ℤ), (0 : ℤ)) 5 initial_value true ≠
        none := by
  constructor
  · unfold MAX_CARS
    omega
  · rw [expected_return_check_eq_some]
    simp

/-- C7 (amended). No out-of-range value-table index ever arises in
`expected_return`, even for infeasible actions with negative or
overflowing post-move counts; the computation always continues and
returns a value instead of aborting. -/
theorem spec_c7 (pmf : ℕ → ℕ → ℚ) (state : ℤ × ℤ) (action : ℤ) (V : List ℚ) (flag : Bool) :
    expected_return_check RENTAL_CREDIT pmf state action V flag =
      some (expected_return pmf state action V flag) :=
  expected_return_check_eq_some RENTAL_CREDIT pmf state action V flag

/-! ## The cache key encoding -/

lemma pkey_inj (n1 r1 n2 r2 : ℕ) (h1 : r1 < 10) (h2 : r2 < 10) :
    pkey n1 r1 = pkey n2 r2 → (n1, r1) = (n2, r2) := by
  unfold pkey
  intro h
  have hn : n1 = n2 ∧ r1 = r2 := by omega
  rw [hn.1, hn.2]

lemma cacheLookup_valid (pmf : ℕ → ℕ → ℚ) :
    ∀ (c : List (ℕ × ℚ)), validCache pmf c → ∀ (k : ℕ) (v : ℚ),
      cacheLookup c k = some v → v = pmf (k / 10) (k % 10)
  | [], _, _, _, h => by cases h
  | (a, b) :: c, hvalid, k, v, h => by
    by_cases hak : a = k
    · rw [cacheLookup, if_pos hak] at h
      cases h
      have := hvalid (a, b) (List.mem_cons_self _ _)
      rw [hak] at this
      exact this
    · rw [cacheLookup, if_neg hak] at h
      exact cacheLookup_valid pmf c (fun p hp => hvalid p (List.mem_cons_of_mem _ hp)) k v h

lemma pkey_decode (n r : ℕ) (h : r < 10) : pkey n r / 10 = n ∧ pkey n r % 10 = r := by
  unfold pkey
  omega

/-- C5, counterexample. The key encoding `n * 10 + lam` collides for
rates at or above 10: the pairs (1, 0) and (0, 10) share key 10, so after
a first call stores the mass of count 1 at rate 0, a lookup for count 0
at rate 10 returns that stored value, not the mass of its own pair. -/
theorem spec_c5_counterexample :
    pkey 1 0 = pkey 0 10 ∧ ((1, 0) : ℕ × ℕ) ≠ (0, 10) ∧
      (poisson_probability pmf_count
          (poisson_probability pmf_count [] 1 0).2 0 10).1 ≠ pmf_count 0 10 := by
  refine ⟨rfl, by decide, ?_⟩
  norm_num [poisson_probability, pkey, cacheLookup, pmf_count]

/-- C5 (amended). For rates below 10 the encoding is injective, so
distinct (count, rate) pairs use distinct cache keys; on a valid cache
the lookup returns the probability mass of exactly the requested pair,
and validity is preserved. -/
theorem spec_c5 (pmf : ℕ → ℕ → ℚ) (c : List (ℕ × ℚ)) (n1 r1 n2 r2 : ℕ)
    (h1 : r1 < 10) (h2 : r2 < 10) (hc : validCache pmf c) :
    ((n1, r1) ≠ (n2, r2) → pkey n1 r1 ≠ pkey n2 r2) ∧
      (poisson_probability pmf c n1 r1).1 = pmf n1 r1 ∧
      validCache pmf (poisson_probability pmf c n1 r1).2 := by
  refine ⟨fun hne hk => hne (pkey_inj n1 r1 n2 r2 h1 h2 hk), ?_, ?_⟩
  · unfold poisson_probability
    simp only []
    split
    · next q hl =>
      have hq := cacheLookup_valid pmf c hc _ q hl
      rw [(pkey_decode n1 r1 h1).1, (pkey_decode n1 r1 h1).2] at hq
      exact hq
    · rfl
  · unfold poisson_probability
    simp only []
    split
    · next q hl => exact hc
    · intro p hp
      rcases List.mem_cons.mp hp with hp | hp
      · rw [hp]
        simp only []
        rw [(pkey_decode n1 r1 h1).1, (pkey_decode n1 r1 h1).2]
      · exact hc p hp

theorem spec_c5_witness :
    (0 : ℕ) < 10 ∧ (5 : ℕ) < 10 ∧ validCache pmf_point [] ∧
      ((((1 : ℕ), (0 : ℕ)) ≠ ((0 : ℕ), (5 : ℕ))) → pkey 1 0 ≠ pkey 0 5) ∧
      (poisson_probability pmf_point [] 1 0).1 = pmf_point 1 0 ∧
      validCache pmf_point (poisson_probability pmf_point [] 1 0).2 := by
  refine ⟨by omega, by omega, by simp [validCache], ?_⟩
  exact spec_c5 pmf_point [] 1 0 0 5 (by omega) (by omega) (by simp [validCache])


/-! ## Referential transparency of the cache -/

lemma rate_bounds : RENTAL_REQUEST_FIRST_LOC < 10 ∧ RENTAL_REQUEST_SECOND_LOC < 10 ∧
    RETURNS_FIRST_LOC < 10 ∧ RETURNS_SECOND_LOC < 10 := by
  decide

lemma pp_fst (pmf : ℕ → ℕ → ℚ) (c : List (ℕ × ℚ)) (n lam : ℕ) :
    (poisson_probability pmf c n lam).1 = answer pmf c n lam := by
  cases h : cacheLookup c (pkey n lam) <;> simp [poisson_probability, answer, h]

lemma answer_cons (pmf : ℕ → ℕ → ℚ) (k : ℕ) (v : ℚ) (c : List (ℕ × ℚ)) (n lam : ℕ) :
    answer pmf ((k, v) :: c) n lam = if k = pkey n lam then v else answer pmf c n lam := by
  by_cases h : k = pkey n lam <;> simp [answer, cacheLookup, h]

/-- Growing the cache through a lookup at a rate below 10 does not change
the value any other below-10 lookup observes. -/
lemma answer_pp_snd (pmf : ℕ → ℕ → ℚ) (c : List (ℕ × ℚ)) (n lam n' lam' : ℕ)
    (h : lam < 10) (h' : lam' < 10) :
    answer pmf (poisson_probability pmf c n lam).2 n' lam' = answer pmf c n' lam' := by
  unfold poisson_probability
  simp only []
  split
  · rfl
  · next hl =>
    rw [answer_cons]
    by_cases hk : pkey n lam = pkey n' lam'
    · rw [if_pos hk]
      injection pkey_inj n lam n' lam' h h' hk with hn hlam
      subst hn
      subst hlam
      simp [answer, hl]
    · rw [if_neg hk]

/-- Simulation of a cache-threading fold by its pure counterpart. -/
lemma foldl_sim {α : Type} (P : List (ℕ × ℚ) → Prop)
    (f : ℚ × List (ℕ × ℚ) → α → ℚ × List (ℕ × ℚ)) (g : ℚ → α → ℚ)
    (hstep : ∀ q c x, P c → (f (q, c) x).1 = g q x ∧ P (f (q, c) x).2) :
    ∀ (l : List α) (q : ℚ) (c : List (ℕ × ℚ)), P c →
      (l.foldl f (q, c)).1 = l.foldl g q ∧ P (l.foldl f (q, c)).2
  | [], _, _, hc => ⟨rfl, hc⟩
  | x :: xs, q, c, hc => by
    rw [List.foldl_cons, List.foldl_cons]
    have h1 := hstep q c x hc
    have h2 := foldl_sim P f g hstep xs (f (q, c) x).1 (f (q, c) x).2 h1.2
    refine ⟨?_, h2.2⟩
    calc (List.foldl f (f (q, c) x) xs).1 = List.foldl g (f (q, c) x).1 xs := h2.1
      _ = List.foldl g (g q x) xs := by rw [h1.1]

/-- The cache-threading evaluator returns the pure evaluator's result
computed against the incoming cache's `answer` function, and changes no
below-10 `answer`. -/
lemma expected_return_full_fst_cache (pmf : ℕ → ℕ → ℚ) (s : ℤ × ℤ) (a : ℤ)
    (σ : RentalState) (flag : Bool) :
    (expected_return_full pmf s a σ flag).1 =
        expected_return (fun n lam => answer pmf σ.cache n lam) s a σ.value flag ∧
      ∀ n lam, lam < 10 →
        answer pmf (expected_return_full pmf s a σ flag).2.cache n lam =
          answer pmf σ.cache n lam := by
  obtain ⟨hb1, hb2, hb3, hb4⟩ := rate_bounds
  unfold expected_return_full expected_return expected_return_rc
  simp only []
  refine foldl_sim
    (fun c => ∀ n lam, lam < 10 → answer pmf c n lam = answer pmf σ.cache n lam)
    _ _ ?_ (List.range POISSON_UPPER_BOUND) _ σ.cache (fun n lam _ => rfl)
  intro q c r1 hc
  refine foldl_sim (fun c => ∀ n lam, lam < 10 → answer pmf c n lam = answer pmf σ.cache n lam) _ _ ?_ (List.range POISSON_UPPER_BOUND) q c hc
  intro q' c' r2 hc'
  simp only []
  cases flag
  · simp only [Bool.false_eq_true, if_false]
    refine foldl_sim (fun c => ∀ n lam, lam < 10 → answer pmf c n lam = answer pmf σ.cache n lam) _ _ ?_ (List.range POISSON_UPPER_BOUND) q'
      (poisson_probability pmf (poisson_probability pmf c' r1 RENTAL_REQUEST_FIRST_LOC).2
        r2 RENTAL_REQUEST_SECOND_LOC).2 ?_
    · intro q3 c3 u1 hc3
      refine foldl_sim (fun c => ∀ n lam, lam < 10 → answer pmf c n lam = answer pmf σ.cache n lam) _ _ ?_ (List.range POISSON_UPPER_BOUND) q3 c3 hc3
      intro q4 c4 u2 hc4
      simp only []
      constructor
      · simp only [pp_fst]
        rw [answer_pp_snd pmf c4 u1 RETURNS_FIRST_LOC u2 RETURNS_SECOND_LOC hb3 hb4,
          answer_pp_snd pmf c' r1 RENTAL_REQUEST_FIRST_LOC r2 RENTAL_REQUEST_SECOND_LOC hb1 hb2,
          hc4 u1 RETURNS_FIRST_LOC hb3, hc4 u2 RETURNS_SECOND_LOC hb4,
          hc' r1 RENTAL_REQUEST_FIRST_LOC hb1, hc' r2 RENTAL_REQUEST_SECOND_LOC hb2]
      · intro n lam hl
        rw [answer_pp_snd pmf _ u2 RETURNS_SECOND_LOC n lam hb4 hl,
          answer_pp_snd pmf c4 u1 RETURNS_FIRST_LOC n lam hb3 hl]
        exact hc4 n lam hl
    · intro n lam hl
      rw [answer_pp_snd pmf _ r2 RENTAL_REQUEST_SECOND_LOC n lam hb2 hl,
        answer_pp_snd pmf c' r1 RENTAL_REQUEST_FIRST_LOC n lam hb1 hl]
      exact hc' n lam hl
  · simp only [if_true]
    constructor
    · simp only [pp_fst]
      rw [answer_pp_snd pmf c' r1 RENTAL_REQUEST_FIRST_LOC r2 RENTAL_REQUEST_SECOND_LOC hb1 hb2,
        hc' r1 RENTAL_REQUEST_FIRST_LOC hb1, hc' r2 RENTAL_REQUEST_SECOND_LOC hb2]
    · intro n lam hl
      rw [answer_pp_snd pmf _ r2 RENTAL_REQUEST_SECOND_LOC n lam hb2 hl,
        answer_pp_snd pmf c' r1 RENTAL_REQUEST_FIRST_LOC n lam hb1 hl]
      exact hc' n lam hl

lemma expected_return_full_value (pmf : ℕ → ℕ → ℚ) (s : ℤ × ℤ) (a : ℤ)
    (σ : RentalState) (flag : Bool) :
    (expected_return_full pmf s a σ flag).2.value = σ.value := rfl


lemma double_sum_congr {N : ℕ} {F G : ℕ → ℕ → ℚ} (h : ∀ a b, F a b = G a b) :
    (∑ a ∈ Finset.range N, ∑ b ∈ Finset.range N, F a b) =
      ∑ a ∈ Finset.range N, ∑ b ∈ Finset.range N, G a b := by
  apply Finset.sum_congr rfl
  intro a _
  apply Finset.sum_congr rfl
  intro b _
  exact h a b

/-- The evaluator only queries the mass function at the four configured
rates, all below 10: agreement there determines the result. -/
lemma expected_return_congr (pmf1 pmf2 : ℕ → ℕ → ℚ)
    (h : ∀ n lam, lam < 10 → pmf1 n lam = pmf2 n lam)
    (s : ℤ × ℤ) (a : ℤ) (V : List ℚ) (flag : Bool) :
    expected_return pmf1 s a V flag = expected_return pmf2 s a V flag := by
  obtain ⟨hb1, hb2, hb3, hb4⟩ := rate_bounds
  unfold expected_return
  rw [expected_return_rc_eq_spec, expected_return_rc_eq_spec]
  unfold expected_return_spec_rc
  simp only []
  apply congrArg
  cases flag
  · apply double_sum_congr
    intro r1 r2
    rw [h r1 _ hb1, h r2 _ hb2]
    apply congrArg
    simp only [Bool.false_eq_true, if_false]
    apply double_sum_congr
    intro u1 u2
    rw [h u1 _ hb3, h u2 _ hb4]
  · apply double_sum_congr
    intro r1 r2
    simp only [if_true]
    rw [h r1 _ hb1, h r2 _ hb2]



/-- C8. The call leaves the value table exactly as it found it, and a
second invocation with the same state, action, table and flag — from the
program state the first call produced, cache growth included — returns
the same result: the cache population is referentially transparent. -/
theorem spec_c8 (pmf : ℕ → ℕ → ℚ) (s : ℤ × ℤ) (a : ℤ) (σ : RentalState) (flag : Bool) :
    (expected_return_full pmf s a σ flag).2.value = σ.value ∧
      (expected_return_full pmf s a ((expected_return_full pmf s a σ flag).2) flag).1 =
        (expected_return_full pmf s a σ flag).1 := by
  refine ⟨expected_return_full_value pmf s a σ flag, ?_⟩
  obtain ⟨h1, hP⟩ := expected_return_full_fst_cache pmf s a σ flag
  obtain ⟨h1', _⟩ :=
    expected_return_full_fst_cache pmf s a ((expected_return_full pmf s a σ flag).2) flag
  rw [h1, h1', expected_return_full_value pmf s a σ flag]
  exact expected_return_congr _ _ hP s a σ.value flag


/-! ## In-place sweeps: generic facts about `setSweep` -/

section SetSweep

variable {α : Type} (f : ℕ → List α → α)

lemma setSweep_zero (v : List α) : setSweep f 0 v = v := rfl

lemma setSweep_succ (n : ℕ) (v : List α) :
    setSweep f (n + 1) v = (setSweep f n v).set n (f n (setSweep f n v)) := by
  unfold setSweep
  rw [List.range_succ, List.foldl_append]
  rfl

lemma setSweep_length : ∀ (n : ℕ) (v : List α), (setSweep f n v).length = v.length
  | 0, v => rfl
  | n + 1, v => by rw [setSweep_succ, List.length_set, setSweep_length n v]

/-- Indices at or beyond the sweep bound are untouched. -/
lemma setSweep_getElem?_ge : ∀ (n : ℕ) (v : List α) (k : ℕ), n ≤ k →
    (setSweep f n v)[k]? = v[k]?
  | 0, _, _, _ => rfl
  | n + 1, v, k, hk => by
    rw [setSweep_succ, List.getElem?_set_ne (by omega), setSweep_getElem?_ge n v k (by omega)]

/-- Entries below `m` are already final after the first `m` steps. -/
lemma setSweep_getElem?_stable (m : ℕ) : ∀ (n : ℕ), m ≤ n → ∀ (v : List α) (k : ℕ), k < m →
    (setSweep f n v)[k]? = (setSweep f m v)[k]?
  | 0, hm, v, k, hk => by omega
  | n + 1, hmn, v, k, hk => by
    rcases Nat.lt_or_ge m (n + 1) with h | h
    · rw [setSweep_succ, List.getElem?_set_ne (by omega),
        setSweep_getElem?_stable m n (by omega) v k hk]
    · have : m = n + 1 := by omega
      rw [this]

/-- The value written at step `k` reads the table produced by the first
`k` steps. -/
lemma setSweep_getElem?_lt (n : ℕ) (v : List α) (k : ℕ) (hk : k < n) (hkv : k < v.length) :
    (setSweep f n v)[k]? = some (f k (setSweep f k v)) := by
  rw [setSweep_getElem?_stable f (k + 1) n (by omega) v k (by omega), setSweep_succ,
    List.getElem?_set_self]
  rw [setSweep_length]
  exact hkv

/-- The table seen by step `k` is the final table below `k` and the
original table from `k` on. -/
lemma setSweep_take_drop (n : ℕ) (v : List α) (k : ℕ) (hk : k ≤ n) (hkv : k ≤ v.length) :
    setSweep f k v = (setSweep f n v).take k ++ v.drop k := by
  apply List.ext_getElem?
  intro i
  rw [List.getElem?_append]
  rcases Nat.lt_or_ge i k with h | h
  · rw [if_pos]
    · rw [List.getElem?_take, if_pos h, setSweep_getElem?_stable f k n hk v i h]
    · rw [List.length_take, setSweep_length]
      omega
  · rw [if_neg]
    · rw [List.length_take, setSweep_length]
      have hmin : min k v.length = k := by omega
      rw [hmin, List.getElem?_drop, setSweep_getElem?_ge f k v i h]
      congr 1
      omega
    · rw [List.length_take, setSweep_length]
      omega

end SetSweep


/-! ## `np.argmax`: first index of the maximum -/

lemma argmaxAux_spec : ∀ (l : List (WithBot ℚ)) (i bi : ℕ) (bv : WithBot ℚ),
    (argmaxAux l i bi bv = bi ∧ ∀ k, k < l.length → l.getD k ⊥ ≤ bv) ∨
      (∃ k, k < l.length ∧ argmaxAux l i bi bv = i + k ∧ bv < l.getD k ⊥ ∧
        (∀ k', k' < l.length → l.getD k' ⊥ ≤ l.getD k ⊥) ∧
        (∀ k', k' < k → l.getD k' ⊥ < l.getD k ⊥))
  | [], i, bi, bv => Or.inl ⟨rfl, fun k hk => absurd hk (by simp)⟩
  | x :: xs, i, bi, bv => by
    simp only [argmaxAux]
    by_cases hx : bv < x
    · rw [if_pos hx]
      rcases argmaxAux_spec xs (i + 1) i x with ⟨heq, hall⟩ | ⟨k, hk, heq, hlt, hall, hfirst⟩
      · refine Or.inr ⟨0, by simp, by omega, ?_, ?_, ?_⟩
        · simpa using hx
        · intro k' hk'
          cases k' with
          | zero => exact le_refl _
          | succ k'' =>
            rw [List.getD_cons_succ, List.getD_cons_zero]
            exact hall k'' (by simpa using hk')
        · intro k' hk'
          omega
      · refine Or.inr ⟨k + 1, by simpa using hk, by omega, ?_, ?_, ?_⟩
        · rw [List.getD_cons_succ]
          exact hx.trans hlt
        · intro k' hk'
          cases k' with
          | zero =>
            rw [List.getD_cons_zero, List.getD_cons_succ]
            exact le_of_lt hlt
          | succ k'' =>
            rw [List.getD_cons_succ, List.getD_cons_succ]
            exact hall k'' (by simpa using hk')
        · intro k' hk'
          cases k' with
          | zero =>
            rw [List.getD_cons_zero, List.getD_cons_succ]
            exact hlt
          | succ k'' =>
            rw [List.getD_cons_succ, List.getD_cons_succ]
            exact hfirst k'' (by omega)
    · rw [if_neg hx]
      have hxle : x ≤ bv := le_of_not_lt hx
      rcases argmaxAux_spec xs (i + 1) bi bv with ⟨heq, hall⟩ | ⟨k, hk, heq, hlt, hall, hfirst⟩
      · refine Or.inl ⟨heq, ?_⟩
        intro k' hk'
        cases k' with
        | zero => exact hxle
        | succ k'' =>
          rw [List.getD_cons_succ]
          exact hall k'' (by simpa using hk')
      · refine Or.inr ⟨k + 1, by simpa using hk, by omega, ?_, ?_, ?_⟩
        · rw [List.getD_cons_succ]
          exact hlt
        · intro k' hk'
          cases k' with
          | zero =>
            rw [List.getD_cons_zero, List.getD_cons_succ]
            exact hxle.trans (le_of_lt hlt)
          | succ k'' =>
            rw [List.getD_cons_succ, List.getD_cons_succ]
            exact hall k'' (by simpa using hk')
        · intro k' hk'
          cases k' with
          | zero =>
            rw [List.getD_cons_zero, List.getD_cons_succ]
            exact lt_of_le_of_lt hxle hlt
          | succ k'' =>
            rw [List.getD_cons_succ, List.getD_cons_succ]
            exact hfirst k'' (by omega)

/-- The function `argmax` returns an in-range index holding the maximum, and every
earlier index holds a strictly smaller value (first occurrence wins). -/
lemma argmax_spec (l : List (WithBot ℚ)) (hl : 0 < l.length) :
    argmax l < l.length ∧
      (∀ k, k < l.length → l.getD k ⊥ ≤ l.getD (argmax l) ⊥) ∧
      (∀ k, k < argmax l → l.getD k ⊥ < l.getD (argmax l) ⊥) := by
  unfold argmax
  rcases argmaxAux_spec l 0 0 ⊥ with ⟨heq, hall⟩ | ⟨k, hk, heq, hlt, hall, hfirst⟩
  · rw [heq]
    have hbot : ∀ k, k < l.length → l.getD k ⊥ = ⊥ := fun k hk => le_bot_iff.mp (hall k hk)
    refine ⟨hl, ?_, ?_⟩
    · intro k hk
      rw [hbot k hk, hbot 0 hl]
    · intro k hk
      omega
  · rw [heq, Nat.zero_add]
    exact ⟨hk, hall, hfirst⟩


/-! ## The improvement sweep: feasibility and greedy selection -/

lemma actions_eq : actions = [-5, -4, -3, -2, -1, 0, 1, 2, 3, 4, 5] := by
  decide

lemma actions_length : actions.length = 11 := by
  rw [actions_eq]
  rfl

lemma actions_getD (k : ℕ) (hk : k < 11) :
    actions.getD k 0 = (k : ℤ) - MAX_MOVE_OF_CARS := by
  rw [actions_eq]
  interval_cases k <;> norm_num [MAX_MOVE_OF_CARS]

lemma action_returns_length (pmf : ℕ → ℕ → ℚ) (v : List ℚ) (flag : Bool) (i j : ℕ) :
    (action_returns pmf v flag i j).length = 11 := by
  unfold action_returns
  rw [List.length_map, actions_length]

lemma action_returns_getD (pmf : ℕ → ℕ → ℚ) (v : List ℚ) (flag : Bool) (i j : ℕ)
    (k : ℕ) (hk : k < 11) :
    (action_returns pmf v flag i j).getD k ⊥ =
      if legal i j ((k : ℤ) - MAX_MOVE_OF_CARS) then
        ((expected_return pmf ((i : ℤ), (j : ℤ)) ((k : ℤ) - MAX_MOVE_OF_CARS) v flag : ℚ) :
          WithBot ℚ)
      else ⊥ := by
  unfold action_returns
  rw [actions_eq]
  interval_cases k <;> norm_num [MAX_MOVE_OF_CARS]

lemma legal_zero (i j : ℕ) : legal i j 0 := by
  unfold legal
  omega

/-- The greedy action is `(argmax of the returns list) - MAX_MOVE_OF_CARS`. -/
lemma new_action_eq (pmf : ℕ → ℕ → ℚ) (v : List ℚ) (flag : Bool) (i j : ℕ) :
    new_action pmf v flag i j =
      ((argmax (action_returns pmf v flag i j) : ℤ)) - MAX_MOVE_OF_CARS := by
  unfold new_action
  rw [actions_getD]
  have := (argmax_spec (action_returns pmf v flag i j)
    (by rw [action_returns_length]; omega)).1
  rw [action_returns_length] at this
  exact this

/-- The greedy action always passes the feasibility test. -/
lemma new_action_legal (pmf : ℕ → ℕ → ℚ) (v : List ℚ) (flag : Bool) (i j : ℕ) :
    legal i j (new_action pmf v flag i j) := by
  have hlen := action_returns_length pmf v flag i j
  have hspec := argmax_spec (action_returns pmf v flag i j) (by rw [hlen]; omega)
  have hargmax : argmax (action_returns pmf v flag i j) < 11 := by
    rw [hlen] at hspec
    exact hspec.1
  have h5 : (action_returns pmf v flag i j).getD 5 ⊥ =
      ((expected_return pmf ((i : ℤ), (j : ℤ)) ((5 : ℤ) - MAX_MOVE_OF_CARS) v flag : ℚ) :
        WithBot ℚ) := by
    rw [action_returns_getD pmf v flag i j 5 (by omega), if_pos]
    · norm_num
    · have h50 : ((5 : ℕ) : ℤ) - MAX_MOVE_OF_CARS = 0 := by
        unfold MAX_MOVE_OF_CARS
        omega
      rw [h50]
      exact legal_zero i j
  have hle := hspec.2.1 5 (by rw [hlen]; omega)
  rw [h5] at hle
  have hne : (action_returns pmf v flag i j).getD
      (argmax (action_returns pmf v flag i j)) ⊥ ≠ ⊥ := by
    intro hbot
    rw [hbot] at hle
    exact absurd (le_bot_iff.mp hle) (WithBot.coe_ne_bot)
  rw [action_returns_getD pmf v flag i j _ hargmax] at hne
  rw [new_action_eq]
  by_contra hnl
  rw [if_neg hnl] at hne
  exact hne rfl

/-- C3. An action is treated as feasible exactly when
`0 ≤ a ≤ i` or `-j ≤ a ≤ 0`; infeasible actions get return `⊥` (the
embedding of `-np.inf`) and are never selected; at state (0, 0) the only
feasible action is 0. -/
theorem spec_c3 (pmf : ℕ → ℕ → ℚ) (v : List ℚ) (flag : Bool) (i j : ℕ) :
    (∀ k, k < 11 →
        ((action_returns pmf v flag i j).getD k ⊥ = ⊥ ↔
          ¬ ((0 ≤ (k : ℤ) - MAX_MOVE_OF_CARS ∧ (k : ℤ) - MAX_MOVE_OF_CARS ≤ (i : ℤ)) ∨
            (-(j : ℤ) ≤ (k : ℤ) - MAX_MOVE_OF_CARS ∧ (k : ℤ) - MAX_MOVE_OF_CARS ≤ 0)))) ∧
      legal i j (new_action pmf v flag i j) ∧
      (∀ a : ℤ, a ≠ 0 → ¬ legal 0 0 a) ∧ legal 0 0 0 := by
  refine ⟨?_, new_action_legal pmf v flag i j, ?_, legal_zero 0 0⟩
  · intro k hk
    rw [action_returns_getD pmf v flag i j k hk]
    by_cases h : legal i j ((k : ℤ) - MAX_MOVE_OF_CARS)
    · rw [if_pos h]
      unfold legal at h
      exact ⟨fun hbot => absurd hbot WithBot.coe_ne_bot, fun hn => absurd h hn⟩
    · rw [if_neg h]
      unfold legal at h
      exact ⟨fun _ => h, fun _ => rfl⟩
  · intro a ha hlegal
    unfold legal at hlegal
    simp only [Nat.cast_zero, neg_zero] at hlegal
    omega

/-- C4. The improvement step's selection is a stable argmax over the
candidate actions enumerated from most negative to most positive: the
selected index holds the maximum evaluated return and every earlier index
holds a strictly smaller one. -/
theorem spec_c4 (pmf : ℕ → ℕ → ℚ) (v : List ℚ) (flag : Bool) (i j : ℕ) :
    actions = [-5, -4, -3, -2, -1, 0, 1, 2, 3, 4, 5] ∧
      new_action pmf v flag i j =
        actions.getD (argmax (action_returns pmf v flag i j)) 0 ∧
      argmax (action_returns pmf v flag i j) < 11 ∧
      (∀ k, k < 11 →
        (action_returns pmf v flag i j).getD k ⊥ ≤
          (action_returns pmf v flag i j).getD (argmax (action_returns pmf v flag i j)) ⊥) ∧
      ∀ k, k < argmax (action_returns pmf v flag i j) →
        (action_returns pmf v flag i j).getD k ⊥ <
          (action_returns pmf v flag i j).getD (argmax (action_returns pmf v flag i j)) ⊥ := by
  have hlen := action_returns_length pmf v flag i j
  have hspec := argmax_spec (action_returns pmf v flag i j) (by rw [hlen]; omega)
  rw [hlen] at hspec
  exact ⟨by decide, rfl, hspec.1, hspec.2.1, hspec.2.2⟩

/-- C10. The improvement sweep always evaluates at least one feasible
action (action 0), and the action it writes into the policy table is
feasible for its state and lies in `[-MAX_MOVE_OF_CARS, MAX_MOVE_OF_CARS]`. -/
theorem spec_c10 (pmf : ℕ → ℕ → ℚ) (v : List ℚ) (flag : Bool) (pol : List ℤ) (i j : ℕ)
    (hi : i ≤ MAX_CARS) (hj : j ≤ MAX_CARS) (hpol : pol.length = NSTATES) :
    (∃ k, k < 11 ∧ (action_returns pmf v flag i j).getD k ⊥ ≠ ⊥) ∧
      (improvement_sweep pmf v flag pol).getD (i * (MAX_CARS + 1) + j) 0 =
        new_action pmf v flag i j ∧
      legal i j (new_action pmf v flag i j) ∧
      -MAX_MOVE_OF_CARS ≤ new_action pmf v flag i j ∧
      new_action pmf v flag i j ≤ MAX_MOVE_OF_CARS := by
  refine ⟨⟨5, by omega, ?_⟩, ?_, new_action_legal pmf v flag i j, ?_, ?_⟩
  · rw [action_returns_getD pmf v flag i j 5 (by omega), if_pos]
    · exact WithBot.coe_ne_bot
    · have h50 : ((5 : ℕ) : ℤ) - MAX_MOVE_OF_CARS = 0 := by
        unfold MAX_MOVE_OF_CARS
        omega
      rw [h50]
      exact legal_zero i j
  · unfold improvement_sweep
    rw [List.getD_eq_getElem?_getD,
      setSweep_getElem?_lt _ NSTATES pol (i * (MAX_CARS + 1) + j)
        (by unfold NSTATES MAX_CARS at *; omega) (by rw [hpol]; unfold NSTATES MAX_CARS at *; omega)]
    have hdiv : (i * (MAX_CARS + 1) + j) / (MAX_CARS + 1) = i := by
      unfold MAX_CARS at *
      omega
    have hmod : (i * (MAX_CARS + 1) + j) % (MAX_CARS + 1) = j := by
      unfold MAX_CARS at *
      omega
    rw [Option.getD_some, hdiv, hmod]
  · have := new_action_eq pmf v flag i j
    have hb : argmax (action_returns pmf v flag i j) < 11 := by
      have hlen := action_returns_length pmf v flag i j
      have hspec := argmax_spec (action_returns pmf v flag i j) (by rw [hlen]; omega)
      rw [hlen] at hspec
      exact hspec.1
    rw [this]
    unfold MAX_MOVE_OF_CARS
    omega
  · have := new_action_eq pmf v flag i j
    have hb : argmax (action_returns pmf v flag i j) < 11 := by
      have hlen := action_returns_length pmf v flag i j
      have hspec := argmax_spec (action_returns pmf v flag i j) (by rw [hlen]; omega)
      rw [hlen] at hspec
      exact hspec.1
    rw [this]
    unfold MAX_MOVE_OF_CARS
    omega

theorem spec_c10_witness :
    (0 : ℕ) ≤ MAX_CARS ∧ (0 : ℕ) ≤ MAX_CARS ∧ initial_policy.length = NSTATES ∧
      ((∃ k, k < 11 ∧ (action_returns pmf_point initial_value true 0 0).getD k ⊥ ≠ ⊥) ∧
        (improvement_sweep pmf_point initial_value true initial_policy).getD
            (0 * (MAX_CARS + 1) + 0) 0 = new_action pmf_point initial_value true 0 0 ∧
        legal 0 0 (new_action pmf_point initial_value true 0 0) ∧
        -MAX_MOVE_OF_CARS ≤ new_action pmf_point initial_value true 0 0 ∧
        new_action pmf_point initial_value true 0 0 ≤ MAX_MOVE_OF_CARS) :=
  ⟨Nat.zero_le _, Nat.zero_le _, by simp [initial_policy],
    spec_c10 pmf_point initial_value true initial_policy 0 0 (Nat.zero_le _) (Nat.zero_le _)
      (by simp [initial_policy])⟩


/-! ## The evaluation phase: in-place updates and termination -/

/-- Each entry written by the evaluation sweep is `expected_return` read
against the mixed table: already-updated values at earlier (row-major)
states, original values at later ones. -/
lemma evaluation_sweep_getD (pmf : ℕ → ℕ → ℚ) (pol : List ℤ) (flag : Bool) (v : List ℚ)
    (hv : v.length = NSTATES) (i j : ℕ) (hi : i ≤ MAX_CARS) (hj : j ≤ MAX_CARS) :
    (evaluation_sweep pmf pol flag v).getD (i * (MAX_CARS + 1) + j) 0 =
      expected_return pmf ((i : ℤ), (j : ℤ)) (pol.getD (i * (MAX_CARS + 1) + j) 0)
        ((evaluation_sweep pmf pol flag v).take (i * (MAX_CARS + 1) + j) ++
          v.drop (i * (MAX_CARS + 1) + j)) flag := by
  have hk : i * (MAX_CARS + 1) + j < NSTATES := by
    unfold NSTATES MAX_CARS at *
    omega
  have hkv : i * (MAX_CARS + 1) + j < v.length := by
    rw [hv]
    exact hk
  unfold evaluation_sweep
  rw [List.getD_eq_getElem?_getD,
    setSweep_getElem?_lt _ NSTATES v (i * (MAX_CARS + 1) + j) hk hkv, Option.getD_some,
    setSweep_take_drop _ NSTATES v (i * (MAX_CARS + 1) + j) (le_of_lt hk) (le_of_lt hkv)]
  have hdiv : (i * (MAX_CARS + 1) + j) / (MAX_CARS + 1) = i := by
    unfold MAX_CARS at *
    omega
  have hmod : (i * (MAX_CARS + 1) + j) % (MAX_CARS + 1) = j := by
    unfold MAX_CARS at *
    omega
  rw [hdiv, hmod]


/-- The evaluation phase returns `some w` exactly when there is a first
sweep count `m` (within fuel) whose max absolute change falls below the
threshold, and `w` is the table after those `m` in-place sweeps. -/
lemma policy_evaluation_iff (pmf : ℕ → ℕ → ℚ) (pol : List ℤ) (flag : Bool) :
    ∀ (fuel : ℕ) (v w : List ℚ),
      policy_evaluation pmf pol flag fuel v = some w ↔
        ∃ m, 1 ≤ m ∧ m ≤ fuel ∧
          w = (evaluation_sweep pmf pol flag)^[m] v ∧
          maxAbsDiff ((evaluation_sweep pmf pol flag)^[m - 1] v)
              ((evaluation_sweep pmf pol flag)^[m] v) < 1 / 10000 ∧
          ∀ k, 1 ≤ k → k < m →
            ¬ maxAbsDiff ((evaluation_sweep pmf pol flag)^[k - 1] v)
                ((evaluation_sweep pmf pol flag)^[k] v) < 1 / 10000
  | 0, v, w => by
    constructor
    · intro h
      exact absurd h (by rw [policy_evaluation]; simp)
    · rintro ⟨m, hm1, hm0, _⟩
      omega
  | fuel + 1, v, w => by
    rw [policy_evaluation]
    by_cases hc : maxAbsDiff v (evaluation_sweep pmf pol flag v) < 1 / 10000
    · rw [if_pos hc]
      constructor
      · intro h
        refine ⟨1, le_refl 1, by omega, ?_, ?_, ?_⟩
        · rw [Function.iterate_one]
          exact (Option.some_inj.mp h).symm
        · rw [Nat.sub_self, Function.iterate_zero_apply, Function.iterate_one]
          exact hc
        · intro k hk1 hk
          omega
      · rintro ⟨m, hm1, hmf, hw, hcond, hmin⟩
        have hm : m = 1 := by
          by_contra hne
          refine hmin 1 (le_refl 1) (by omega) ?_
          rw [Nat.sub_self, Function.iterate_zero_apply, Function.iterate_one]
          exact hc
        rw [hm, Function.iterate_one] at hw
        rw [hw]
    · rw [if_neg hc]
      rw [policy_evaluation_iff pmf pol flag fuel (evaluation_sweep pmf pol flag v) w]
      have hshift : ∀ t : ℕ,
          (evaluation_sweep pmf pol flag)^[t] (evaluation_sweep pmf pol flag v) =
            (evaluation_sweep pmf pol flag)^[t + 1] v :=
        fun t => (Function.iterate_succ_apply (evaluation_sweep pmf pol flag) t v).symm
      constructor
      · rintro ⟨m, hm1, hmf, hw, hcond, hmin⟩
        rw [hshift] at hw
        rw [hshift, hshift] at hcond
        rw [show m - 1 + 1 = m by omega] at hcond
        refine ⟨m + 1, by omega, by omega, ?_, ?_, ?_⟩
        · exact hw
        · rw [show m + 1 - 1 = m by omega]
          exact hcond
        · intro k hk1 hkm
          rcases Nat.eq_or_lt_of_le hk1 with h1 | h1
          · rw [← h1, Nat.sub_self, Function.iterate_zero_apply, Function.iterate_one]
            exact hc
          · have hk2 : 1 ≤ k - 1 := by omega
            have hthis := hmin (k - 1) hk2 (by omega)
            rw [hshift, hshift] at hthis
            rw [show k - 1 - 1 + 1 = k - 1 by omega, show k - 1 + 1 = k by omega] at hthis
            exact hthis
      · rintro ⟨m, hm1, hmf, hw, hcond, hmin⟩
        have hm2 : 2 ≤ m := by
          rcases Nat.eq_or_lt_of_le hm1 with h1 | h1
          · exfalso
            rw [← h1, Nat.sub_self, Function.iterate_zero_apply, Function.iterate_one] at hcond
            exact hc hcond
          · omega
        refine ⟨m - 1, by omega, by omega, ?_, ?_, ?_⟩
        · rw [hshift, show m - 1 + 1 = m by omega]
          exact hw
        · rw [hshift, hshift, show m - 1 - 1 + 1 = m - 1 by omega,
            show m - 1 + 1 = m by omega]
          exact hcond
        · intro k hk1 hkm
          have hthis := hmin (k + 1) (by omega) (by omega)
          rw [show k + 1 - 1 = k by omega] at hthis
          rw [hshift, hshift, show k - 1 + 1 = k by omega]
          exact hthis


/-- C2. The evaluation phase overwrites each state's value in place with
`expected_return(state, policy[state], value, flag)` — later states in
the sweep read the values already updated earlier in that same sweep
(the mixed `take ++ drop` table) — and the phase returns exactly at the
first sweep whose maximum absolute change drops below 1e-4. -/
theorem spec_c2 (pmf : ℕ → ℕ → ℚ) (pol : List ℤ) (flag : Bool) (v : List ℚ)
    (hv : v.length = NSTATES) (i j : ℕ) (hi : i ≤ MAX_CARS) (hj : j ≤ MAX_CARS)
    (fuel : ℕ) (w : List ℚ) :
    ((evaluation_sweep pmf pol flag v).getD (i * (MAX_CARS + 1) + j) 0 =
        expected_return pmf ((i : ℤ), (j : ℤ)) (pol.getD (i * (MAX_CARS + 1) + j) 0)
          ((evaluation_sweep pmf pol flag v).take (i * (MAX_CARS + 1) + j) ++
            v.drop (i * (MAX_CARS + 1) + j)) flag) ∧
      (policy_evaluation pmf pol flag fuel v = some w ↔
        ∃ m, 1 ≤ m ∧ m ≤ fuel ∧
          w = (evaluation_sweep pmf pol flag)^[m] v ∧
          maxAbsDiff ((evaluation_sweep pmf pol flag)^[m - 1] v)
              ((evaluation_sweep pmf pol flag)^[m] v) < 1 / 10000 ∧
          ∀ k, 1 ≤ k → k < m →
            ¬ maxAbsDiff ((evaluation_sweep pmf pol flag)^[k - 1] v)
                ((evaluation_sweep pmf pol flag)^[k] v) < 1 / 10000) :=
  ⟨evaluation_sweep_getD pmf pol flag v hv i j hi hj,
    policy_evaluation_iff pmf pol flag fuel v w⟩

theorem spec_c2_witness :
    initial_value.length = NSTATES ∧ (0 : ℕ) ≤ MAX_CARS ∧ (0 : ℕ) ≤ MAX_CARS ∧
      (((evaluation_sweep pmf_zero initial_policy true initial_value).getD
            (0 * (MAX_CARS + 1) + 0) 0 =
          expected_return pmf_zero (((0 : ℕ) : ℤ), ((0 : ℕ) : ℤ))
            (initial_policy.getD (0 * (MAX_CARS + 1) + 0) 0)
            ((evaluation_sweep pmf_zero initial_policy true initial_value).take
                (0 * (MAX_CARS + 1) + 0) ++
              initial_value.drop (0 * (MAX_CARS + 1) + 0)) true) ∧
        (policy_evaluation pmf_zero initial_policy true 1 initial_value =
            some (evaluation_sweep pmf_zero initial_policy true initial_value) ↔
          ∃ m, 1 ≤ m ∧ m ≤ 1 ∧
            evaluation_sweep pmf_zero initial_policy true initial_value =
              (evaluation_sweep pmf_zero initial_policy true)^[m] initial_value ∧
            maxAbsDiff ((evaluation_sweep pmf_zero initial_policy true)^[m - 1] initial_value)
                ((evaluation_sweep pmf_zero initial_policy true)^[m] initial_value) <
              1 / 10000 ∧
            ∀ k, 1 ≤ k → k < m →
              ¬ maxAbsDiff
                  ((evaluation_sweep pmf_zero initial_policy true)^[k - 1] initial_value)
                  ((evaluation_sweep pmf_zero initial_policy true)^[k] initial_value) <
                1 / 10000)) :=
  ⟨by simp [initial_value], Nat.zero_le _, Nat.zero_le _,
    spec_c2 pmf_zero initial_policy true initial_value (by simp [initial_value]) 0 0
      (Nat.zero_le _) (Nat.zero_le _) 1
      (evaluation_sweep pmf_zero initial_policy true initial_value)⟩

end CarRental
